import Mathlib

/-!
Shallow embedding of the face-recognition attendance system
(`attendance_system.py` and `enroll_new_person.py`).

Descriptors are modelled as rational vectors (`List ℚ`).  The external
library `face_recognition` (not part of the repository) computes Euclidean
distances between descriptors; a Euclidean distance is generally irrational,
so the embedding carries the *squared* distance and compares it against the
squared tolerance.  For a nonnegative squared distance `d2` and a tolerance
`t`, the library's test `sqrt d2 ≤ t` holds iff `0 ≤ t ∧ d2 ≤ t ^ 2`, and
the square root is strictly monotone on nonnegative values, so the index of
the minimum distance coincides with the index of the minimum squared
distance.  All comparisons below are stated in this equivalent squared form.
-/

namespace FaceAttendance

/-- A face descriptor: a fixed-length real-valued vector, modelled with
rational coordinates. -/
abbrev Desc := List ℚ

/-- Squared Euclidean distance between two descriptor vectors: the sum of
squared coordinate differences. -/
def sqDist (u v : Desc) : ℚ :=
  (List.zipWith (fun a b => (a - b) ^ 2) u v).sum

/-- Modelled from the spec: the external library function
`face_recognition.face_distance` (absent from the repository) returns the
Euclidean distance from the live descriptor to every known encoding; this
embedding returns the squared distances, in the same order. -/
def face_distance_sq (known_face_encodings : List Desc) (face_encoding : Desc) : List ℚ :=
  known_face_encodings.map (fun e => sqDist e face_encoding)

/-- Modelled from the spec: the external library function
`face_recognition.compare_faces` returns, for each known encoding, whether
its Euclidean distance to the live descriptor is at most `tolerance`;
equivalently (squared form), whether `0 ≤ tolerance` and the squared
distance is at most `tolerance ^ 2`. -/
def compare_faces (known_face_encodings : List Desc) (face_encoding : Desc)
    (tolerance : ℚ) : List Bool :=
  (face_distance_sq known_face_encodings face_encoding).map
    (fun d2 => decide (0 ≤ tolerance ∧ d2 ≤ tolerance ^ 2))

/-- Minimum of a list of rationals (0 for the empty list; only used on
nonempty lists). -/
def listMin : List ℚ → ℚ
  | [] => 0
  | [x] => x
  | x :: y :: ys => min x (listMin (y :: ys))

/-- Semantics of numpy `argmin`: the index of the first occurrence of the
minimum value (0 on the empty list; only used on nonempty lists). -/
def argmin : List ℚ → Nat
  | [] => 0
  | [_] => 0
  | x :: y :: ys => if x ≤ listMin (y :: ys) then 0 else argmin (y :: ys) + 1

/-- Lines 134-146 of `attendance_system.py`, the per-face matching logic:
`name = "Unknown"`; if the distance array is nonempty, take
`best_match_index = face_distances.argmin()` and, when
`matches[best_match_index]` holds, set `name` to
`known_face_names[best_match_index]`.  The tolerance (0.55 in the source
call to `compare_faces`) is kept as a parameter.  List indexing uses
`getD`; all call sites keep the two pooled lists the same length, so the
defaults are never read there. -/
def recognizeFace (known_face_encodings : List Desc) (known_face_names : List String)
    (tolerance : ℚ) (face_encoding : Desc) : String :=
  let matchesList := compare_faces known_face_encodings face_encoding tolerance
  let face_distances := face_distance_sq known_face_encodings face_encoding
  if 0 < face_distances.length then
    let best_match_index := argmin face_distances
    if matchesList.getD best_match_index false then
      known_face_names.getD best_match_index "Unknown"
    else
      "Unknown"
  else
    "Unknown"

/-- Outcome of the external library on one enrollment image, as observed by
the loader: either the list of face encodings detected in the image
(possibly empty), or a processing failure with an error message. -/
inductive ImageOutcome where
  | detected (encodings : List Desc)
  | failure (msg : String)
deriving DecidableEq

/-- One diagnostic line printed by `load_known_faces` while processing a
person's images. -/
inductive LoadReport where
  | noFaceWarning
  | processingError (msg : String)
deriving DecidableEq

/-- Lines 37-49 of `attendance_system.py`, the per-person image loop: for
each image, on success with a nonempty encoding list append the first
encoding (`encodings[0]`); on an empty encoding list print a no-face
warning and skip; on an exception print an error report and skip.
Returns the collected `person_encodings` together with the reports, both
in image order. -/
def processPersonImages : List ImageOutcome → List Desc × List LoadReport
  | [] => ([], [])
  | ImageOutcome.detected encodings :: rest =>
    let acc := processPersonImages rest
    match encodings with
    | [] => (acc.1, LoadReport.noFaceWarning :: acc.2)
    | e :: _ => (e :: acc.1, acc.2)
  | ImageOutcome.failure m :: rest =>
    let acc := processPersonImages rest
    (acc.1, LoadReport.processingError m :: acc.2)

/-- Lines 26-56 of `attendance_system.py`: `load_known_faces`.  The root
enrollment directory is `none` when `KNOWN_FACES_DIR` does not exist, and
otherwise holds the listing of per-person subdirectories, each with the
library outcomes for its images (non-directory entries of the root are
skipped by the source and are not modelled).  A missing or empty root
returns the two empty lists at once (lines 26-29).  Otherwise each person
contributes its encodings to the pooled flat `known_face_encodings` list,
with its name replicated once per encoding in the parallel
`known_face_names` list (lines 51-53); a person with no successful image
contributes nothing. -/
def load_known_faces (root : Option (List (String × List ImageOutcome))) :
    List Desc × List String :=
  match root with
  | none => ([], [])
  | some [] => ([], [])
  | some persons =>
    persons.foldl
      (fun acc p =>
        let person_encodings := (processPersonImages p.2).1
        if person_encodings.isEmpty then acc
        else (acc.1 ++ person_encodings,
              acc.2 ++ List.replicate person_encodings.length p.1))
      ([], [])

/-- Ordering used by the ledger sort: compare two (Name, Timestamp) rows
by their Timestamp column.  Lexicographic string order agrees with
time-of-day order for the fixed-width HH:MM:SS format the source writes. -/
def tsLe (a b : String × String) : Prop := a.2 ≤ b.2

instance : DecidableRel tsLe :=
  fun a b => inferInstanceAs (Decidable (a.2 ≤ b.2))

instance : IsTotal (String × String) tsLe :=
  ⟨fun a b => le_total a.2 b.2⟩

instance : IsTrans (String × String) tsLe :=
  ⟨fun _ _ _ h h2 => le_trans h h2⟩

/-- Lines 58-92 of `attendance_system.py`: `update_attendance_sheet`.
The per-day Excel file is modelled as `Option (List (String × String))`:
`none` when reading it raises `FileNotFoundError`, otherwise its list of
(Name, Timestamp) rows.  `recognized_names` enumerates the session's
recognized-name set (a Python set, hence duplicate-free at the call site);
`now` stands for the HH:MM:SS timestamps drawn during the flush.  The
result is the store after the call: unchanged when `recognized_names` is
empty (line 66) or when every name is already present so that
`new_attendees` is empty (line 86 guard, no write); otherwise the existing
rows plus one new row per absent name, re-sorted by Timestamp
(lines 88-91) and written back. -/
def update_attendance_sheet (now : String) (store : Option (List (String × String)))
    (recognized_names : List String) : Option (List (String × String)) :=
  if recognized_names.isEmpty then store
  else
    let df := store.getD []
    let existing_names := df.map Prod.fst
    let new_attendees :=
      (recognized_names.filter (fun n => decide (n ∉ existing_names))).map
        (fun n => (n, now))
    if new_attendees.isEmpty then store
    else some (List.insertionSort tsLe (df ++ new_attendees))

/-- Lines 144-146 of `attendance_system.py`: after a successful match, the
session tracker inserts the name into `session_recognized_names` (a Python
set, modelled as a Finset) and prints the welcome line exactly when the
name is not yet present.  The Bool records whether the first-recognition
event was emitted. -/
def observeRecognition (session_recognized_names : Finset String) (name : String) :
    Finset String × Bool :=
  if name ∈ session_recognized_names then (session_recognized_names, false)
  else (insert name session_recognized_names, true)

/-- Whether the library detected at least one face in the image, so that
the loader extracts its first encoding. -/
def producesDescriptor : ImageOutcome → Bool
  | ImageOutcome.detected (_ :: _) => true
  | _ => false

/-- Whether the image loaded but contained no detectable face. -/
def isNoFace : ImageOutcome → Bool
  | ImageOutcome.detected [] => true
  | _ => false

/-- Whether processing the image raised an exception. -/
def isFailure : ImageOutcome → Bool
  | ImageOutcome.failure _ => true
  | _ => false

/-- Whether a load report is an error report (as opposed to a no-face
warning). -/
def isErrorReport : LoadReport → Bool
  | LoadReport.processingError _ => true
  | _ => false

/-- Lines 98-107 and 178-183 of `attendance_system.py`: the top level of
`main`, with the live recognition loop abstracted into the list of names
it would accumulate.  After loading the known faces, the session aborts
before the loop (result `none`: no attendance artifact) when no encodings
were loaded (lines 100-102) or the camera cannot be opened
(lines 104-107); otherwise it ends by flushing the session's names
through `update_attendance_sheet` (line 183), yielding the final store. -/
def mainSession (root : Option (List (String × List ImageOutcome))) (cameraOk : Bool)
    (now : String) (store : Option (List (String × String)))
    (session_recognized_names : List String) :
    Option (Option (List (String × String))) :=
  if (load_known_faces root).1.isEmpty then none
  else if !cameraOk then none
  else some (update_attendance_sheet now store session_recognized_names)

/-- One pose stage of the enrollment workflow: the pose name and the
number of snapshots it requires. -/
structure Pose where
  name : String
  count : Nat
deriving DecidableEq

instance : Inhabited Pose := ⟨⟨"", 0⟩⟩

/-- Lines 10-16 of `enroll_new_person.py`: the fixed ordered sequence of
poses required from the user. -/
def POSES : List Pose :=
  [⟨"Center", 2⟩, ⟨"Look Left", 1⟩, ⟨"Look Right", 1⟩, ⟨"Look Up", 1⟩, ⟨"Look Down", 1⟩]

/-- Required snapshot count of stage `i`. -/
def req (poses : List Pose) (i : Nat) : Nat := (poses.getD i default).count

/-- State of the enrollment workflow: capturing snapshots for stage
`stage` with `taken` snapshots taken in this stage and `total` overall, or
complete with the reported overall total. -/
inductive EnrollState where
  | capturing (stage : Nat) (taken : Nat) (total : Nat)
  | complete (total : Nat)
deriving DecidableEq

/-- One frame observation of the enrollment capture loop: either the
webcam read failed (`ret` false, lines 67-70 of `enroll_new_person.py`),
or a frame was read, carrying the number of faces the library detects in
it and whether the two-second inter-capture delay has elapsed. -/
inductive FrameInput where
  | readFailed
  | frame (faces : Nat) (delayOk : Bool)
deriving DecidableEq

/-- Lines 54-98 of `enroll_new_person.py`: one iteration of the capture
loop of `enroll_person_advanced`.  On a read frame, a snapshot is saved
only when exactly one face is detected and the delay has passed
(lines 81-93), incrementing the per-stage and overall counters; zero
faces (line 98) or several faces (lines 95-96) only change the status
text shown.  When the stage's required count is reached, the enclosing
for-loop moves on to the next pose, and after the last pose the workflow
is complete (line 109).  A failed frame read (lines 67-70) breaks out of
the inner while-loop only, so the for-loop advances to the next pose with
the current stage incomplete and the total unchanged — and past the last
pose the completion block still runs, reporting the total so far.  The
operator cancellation at lines 102-106 returns at once without reaching
the completion block; a cancelled run is modelled by simply truncating
the input sequence, leaving a capturing state. -/
def stepEnroll (poses : List Pose) : EnrollState → FrameInput → EnrollState
  | EnrollState.complete t, _ => EnrollState.complete t
  | EnrollState.capturing i _taken total, FrameInput.readFailed =>
    if i + 1 < poses.length then EnrollState.capturing (i + 1) 0 total
    else EnrollState.complete total
  | EnrollState.capturing i taken total, FrameInput.frame faces delayOk =>
    if faces = 1 ∧ delayOk = true then
      if taken + 1 < req poses i then EnrollState.capturing i (taken + 1) (total + 1)
      else if i + 1 < poses.length then EnrollState.capturing (i + 1) 0 (total + 1)
      else EnrollState.complete (total + 1)
    else EnrollState.capturing i taken total

/-- The whole enrollment workflow on a sequence of frame observations,
starting at the first pose with nothing captured. -/
def runEnroll (poses : List Pose) (inputs : List FrameInput) : EnrollState :=
  inputs.foldl (stepEnroll poses) (EnrollState.capturing 0 0 0)

/-- Sum of the per-stage required snapshot counts. -/
def sumCounts (poses : List Pose) : Nat := (poses.map Pose.count).sum

/-- Invariant of the enrollment state machine: the stage index is in
range, the per-stage counter is below the stage's requirement, and the
overall total accounts for all completed stages plus the current one;
a complete state reports the sum of all requirements. -/
def EnrollInv (poses : List Pose) : EnrollState → Prop
  | EnrollState.capturing i taken total =>
      i < poses.length ∧ taken < req poses i ∧
        total = sumCounts (poses.take i) + taken
  | EnrollState.complete total => total = sumCounts poses

/-- Weakening of `EnrollInv` that survives frame-read failures: a failed
read abandons the rest of the current stage, so the overall total only
stays bounded by the snapshots the completed stages could have
contributed. -/
def EnrollInvLe (poses : List Pose) : EnrollState → Prop
  | EnrollState.capturing i taken total =>
      i < poses.length ∧ taken < req poses i ∧
        total ≤ sumCounts (poses.take i) + taken
  | EnrollState.complete total => total ≤ sumCounts poses

/-- Lines 24-27 of `enroll_new_person.py`: the name-validation guard of
`enroll_person_advanced`; true exactly when enrollment aborts because the
entered name is empty or contains a path-unsafe character. -/
def invalid_name (person_name : String) : Bool :=
  person_name.isEmpty ||
    person_name.toList.any
      (fun c => ['<', '>', ':', '"', '/', '\\', '|', '?', '*'].contains c)

theorem listMin_le_of_mem : ∀ (l : List ℚ) (x : ℚ), x ∈ l → listMin l ≤ x
  | [y], x, h => by
    simp only [List.mem_singleton] at h
    simp [listMin, h]
  | y :: z :: zs, x, h => by
    rcases List.mem_cons.mp h with rfl | h2
    · simp [listMin]
    · exact le_trans (min_le_right _ _) (listMin_le_of_mem (z :: zs) x h2)

theorem argmin_lt_length : ∀ (l : List ℚ), l ≠ [] → argmin l < l.length
  | [x], _ => by simp [argmin]
  | x :: y :: ys, _ => by
    by_cases h : x ≤ listMin (y :: ys)
    · simp [argmin, h]
    · have ih := argmin_lt_length (y :: ys) (by simp)
      simp only [argmin, h, if_false]
      simpa [Nat.succ_lt_succ_iff] using ih

theorem getD_argmin : ∀ (l : List ℚ), l ≠ [] → l.getD (argmin l) 0 = listMin l
  | [x], _ => by simp [argmin, listMin]
  | x :: y :: ys, _ => by
    by_cases h : x ≤ listMin (y :: ys)
    · simp [argmin, h, listMin, min_eq_left h]
    · have ih := getD_argmin (y :: ys) (by simp)
      have hlt : listMin (y :: ys) < x := lt_of_not_le h
      simp only [argmin, h, if_false, listMin, min_eq_right (le_of_lt hlt), List.getD_cons_succ]
      exact ih

theorem getD_map_bool (f : ℚ → Bool) (l : List ℚ) (i : Nat) (h : i < l.length) :
    (l.map f).getD i false = f (l.getD i 0) := by
  rw [List.getD_eq_getElem _ _ (by simpa using h), List.getD_eq_getElem _ _ h,
    List.getElem_map]

theorem recognizeFace_eq (encs : List Desc) (names : List String) (tol : ℚ)
    (live : Desc) (hne : encs ≠ []) :
    recognizeFace encs names tol live =
      if 0 ≤ tol ∧
          (face_distance_sq encs live).getD (argmin (face_distance_sq encs live)) 0 ≤ tol ^ 2
      then names.getD (argmin (face_distance_sq encs live)) "Unknown"
      else "Unknown" := by
  have hlen : (face_distance_sq encs live).length = encs.length := by
    simp [face_distance_sq]
  have hpos : 0 < (face_distance_sq encs live).length := by
    rw [hlen]
    exact List.length_pos.mpr hne
  have hb : argmin (face_distance_sq encs live) < (face_distance_sq encs live).length :=
    argmin_lt_length _ (List.length_pos.mp hpos)
  simp only [recognizeFace]
  rw [if_pos hpos, compare_faces, getD_map_bool _ _ _ hb]
  by_cases hc : 0 ≤ tol ∧
      (face_distance_sq encs live).getD (argmin (face_distance_sq encs live)) 0 ≤ tol ^ 2
  · rw [if_pos hc, if_pos (by simpa using hc)]
  · rw [if_neg hc, if_neg (by simpa using hc)]

/-- C1: for every non-empty reference set, every live descriptor and every
tolerance, the matcher pools the reference descriptors into one flat list
(load_known_faces), the entry at the argmin index of the pooled distance
list is a minimum of all pooled distances, and recognizeFace returns the
name at that index exactly when the minimum distance is within tolerance
(squared form: squared distance within squared nonnegative tolerance) and
"Unknown" otherwise; in particular the scenario with references
Alice = [3/10] and Bob = [9/10], live descriptor [0] (Euclidean distances
3/10 and 9/10) and tolerance 6/10 yields "Alice". -/
theorem matcher_min_distance_rule (encs : List Desc) (names : List String) (tol : ℚ)
    (live : Desc) (hne : encs ≠ []) :
    (∀ j, j < (face_distance_sq encs live).length →
        (face_distance_sq encs live).getD (argmin (face_distance_sq encs live)) 0 ≤
          (face_distance_sq encs live).getD j 0) ∧
    recognizeFace encs names tol live =
      (if 0 ≤ tol ∧
          (face_distance_sq encs live).getD (argmin (face_distance_sq encs live)) 0 ≤ tol ^ 2
       then names.getD (argmin (face_distance_sq encs live)) "Unknown"
       else "Unknown") ∧
    load_known_faces (some [("Alice", [ImageOutcome.detected [[3/10]]]),
        ("Bob", [ImageOutcome.detected [[9/10]]])]) = ([[3/10], [9/10]], ["Alice", "Bob"]) ∧
    recognizeFace [[3/10], [9/10]] ["Alice", "Bob"] (6/10) [0] = "Alice" := by
  have hne' : face_distance_sq encs live ≠ [] := by
    simp [face_distance_sq, hne]
  refine ⟨?_, recognizeFace_eq encs names tol live hne, ?_, ?_⟩
  · intro j hj
    rw [getD_argmin _ hne']
    exact listMin_le_of_mem _ _ (by
      rw [List.getD_eq_getElem _ _ hj]
      exact List.getElem_mem hj)
  · rfl
  · norm_num [recognizeFace, compare_faces, face_distance_sq, sqDist, argmin, listMin]

theorem matcher_min_distance_rule_witness :
    recognizeFace [[3/10], [9/10]] ["Alice", "Bob"] (6/10) [0] = "Alice" :=
  (matcher_min_distance_rule [[3/10], [9/10]] ["Alice", "Bob"] (6/10) [0]
    (by simp)).2.2.2

/-- C2: for a fixed reference set and live descriptor, if the matcher
accepts a match (returns a name other than "Unknown") at tolerance t1 and
t1 < t2, then it returns the very same name at tolerance t2 and in
particular also accepts the match there. -/
theorem tolerance_monotone (encs : List Desc) (names : List String) (live : Desc)
    (t1 t2 : ℚ) (hlt : t1 < t2)
    (hacc : recognizeFace encs names t1 live ≠ "Unknown") :
    recognizeFace encs names t2 live = recognizeFace encs names t1 live ∧
    recognizeFace encs names t2 live ≠ "Unknown" := by
  have hne : encs ≠ [] := by
    intro h
    subst h
    exact hacc (by simp [recognizeFace, face_distance_sq])
  rw [recognizeFace_eq encs names t1 live hne] at hacc ⊢
  rw [recognizeFace_eq encs names t2 live hne]
  by_cases hc : 0 ≤ t1 ∧
      (face_distance_sq encs live).getD (argmin (face_distance_sq encs live)) 0 ≤ t1 ^ 2
  · have hc2 : 0 ≤ t2 ∧
        (face_distance_sq encs live).getD (argmin (face_distance_sq encs live)) 0 ≤ t2 ^ 2 := by
      refine ⟨le_trans hc.1 (le_of_lt hlt), le_trans hc.2 ?_⟩
      exact pow_le_pow_left₀ hc.1 (le_of_lt hlt) 2
    rw [if_pos hc, if_pos hc2]
    exact ⟨rfl, by rwa [if_pos hc] at hacc⟩
  · exact absurd rfl (by rwa [if_neg hc] at hacc)

theorem tolerance_monotone_witness :
    recognizeFace [[0]] ["alice"] 1 [0] = recognizeFace [[0]] ["alice"] (1/2) [0] ∧
    recognizeFace [[0]] ["alice"] 1 [0] ≠ "Unknown" :=
  tolerance_monotone [[0]] ["alice"] [0] (1/2) 1 (by norm_num)
    (by
      norm_num [recognizeFace, compare_faces, face_distance_sq, sqDist, argmin, listMin]
      decide)

/-- C6: matching any live descriptor against an empty pooled reference set
returns "Unknown"; the matcher is a total function, so no error can be
raised, and both a missing root directory and an empty one load the empty
reference set. -/
theorem empty_reference_set_unknown (names : List String) (tol : ℚ) (live : Desc) :
    recognizeFace [] names tol live = "Unknown" ∧
    load_known_faces (some []) = ([], []) ∧
    load_known_faces none = ([], []) := by
  refine ⟨?_, rfl, rfl⟩
  simp [recognizeFace, face_distance_sq]

/-- C5: observing a recognized identity is idempotent within a session:
when the name is not yet in the session recognition set, the first
observation inserts it and emits the first-recognition event, the second
observation leaves the set unchanged and emits no event, and the set has
gained exactly one entry. -/
theorem session_observe_idempotent (s : Finset String) (n : String) (h : n ∉ s) :
    observeRecognition s n = (insert n s, true) ∧
    observeRecognition (observeRecognition s n).1 n = (insert n s, false) ∧
    (insert n s).card = s.card + 1 := by
  refine ⟨by simp [observeRecognition, h], ?_, Finset.card_insert_of_not_mem h⟩
  simp [observeRecognition, h]

theorem session_observe_idempotent_witness :
    observeRecognition ∅ "alice" = (insert "alice" ∅, true) ∧
    observeRecognition (observeRecognition ∅ "alice").1 "alice" =
      (insert "alice" ∅, false) ∧
    (insert "alice" (∅ : Finset String)).card = (∅ : Finset String).card + 1 :=
  session_observe_idempotent ∅ "alice" (Finset.not_mem_empty "alice")

theorem processPersonImages_length_eq (images : List ImageOutcome) :
    (processPersonImages images).1.length = images.countP producesDescriptor := by
  induction images with
  | nil => rfl
  | cons img rest ih =>
    cases img with
    | detected encodings =>
      cases encodings with
      | nil => simpa [processPersonImages, producesDescriptor, List.countP_cons] using ih
      | cons e es => simpa [processPersonImages, producesDescriptor, List.countP_cons] using ih
    | failure m => simpa [processPersonImages, producesDescriptor, List.countP_cons] using ih

theorem processPersonImages_warnings (images : List ImageOutcome) :
    (processPersonImages images).2.countP
        (fun r => decide (r = LoadReport.noFaceWarning)) = images.countP isNoFace := by
  induction images with
  | nil => rfl
  | cons img rest ih =>
    cases img with
    | detected encodings =>
      cases encodings with
      | nil => simpa [processPersonImages, isNoFace, List.countP_cons] using ih
      | cons e es => simpa [processPersonImages, isNoFace, List.countP_cons] using ih
    | failure m => simpa [processPersonImages, isNoFace, List.countP_cons] using ih

theorem processPersonImages_errors (images : List ImageOutcome) :
    (processPersonImages images).2.countP isErrorReport = images.countP isFailure := by
  induction images with
  | nil => rfl
  | cons img rest ih =>
    cases img with
    | detected encodings =>
      cases encodings with
      | nil => simpa [processPersonImages, isFailure, isErrorReport, List.countP_cons] using ih
      | cons e es =>
        simpa [processPersonImages, isFailure, isErrorReport, List.countP_cons] using ih
    | failure m => simpa [processPersonImages, isFailure, isErrorReport, List.countP_cons] using ih

/-- C7: the descriptor store extracts at most one descriptor per image and
exactly one per image with a detected face, namely the first encoding; an
image with no detected face contributes a warning and processing
continues; an image whose processing raises contributes an error report
and processing continues; and the three-image scenario with one
undetectable face yields exactly two descriptors and one warning. -/
theorem descriptor_store_per_image (images : List ImageOutcome) :
    (processPersonImages images).1.length = images.countP producesDescriptor ∧
    (processPersonImages images).1.length ≤ images.length ∧
    (processPersonImages images).2.countP
        (fun r => decide (r = LoadReport.noFaceWarning)) = images.countP isNoFace ∧
    (processPersonImages images).2.countP isErrorReport = images.countP isFailure ∧
    (∀ e es rest, processPersonImages (ImageOutcome.detected (e :: es) :: rest) =
        (e :: (processPersonImages rest).1, (processPersonImages rest).2)) ∧
    (∀ rest, processPersonImages (ImageOutcome.detected [] :: rest) =
        ((processPersonImages rest).1,
          LoadReport.noFaceWarning :: (processPersonImages rest).2)) ∧
    (∀ m rest, processPersonImages (ImageOutcome.failure m :: rest) =
        ((processPersonImages rest).1,
          LoadReport.processingError m :: (processPersonImages rest).2)) ∧
    processPersonImages [ImageOutcome.detected [[1]], ImageOutcome.detected [],
        ImageOutcome.detected [[2]]] = ([[1], [2]], [LoadReport.noFaceWarning]) := by
  refine ⟨processPersonImages_length_eq images, ?_, processPersonImages_warnings images,
    processPersonImages_errors images, fun e es rest => rfl, fun rest => rfl,
    fun m rest => rfl, rfl⟩
  rw [processPersonImages_length_eq images]
  exact List.countP_le_length _

theorem countP_fst_pos_iff (df : List (String × String)) (n : String) :
    0 < df.countP (fun r => decide (r.1 = n)) ↔ n ∈ df.map Prod.fst := by
  rw [List.countP_pos_iff, List.mem_map]
  constructor
  · rintro ⟨r, hr, hp⟩
    exact ⟨r, hr, by simpa using hp⟩
  · rintro ⟨r, hr, hp⟩
    exact ⟨r, hr, by simpa using hp⟩

theorem update_of_all_mem (now : String) (store : Option (List (String × String)))
    (names : List String)
    (h : ∀ n ∈ names, n ∈ (store.getD []).map Prod.fst) :
    update_attendance_sheet now store names = store := by
  unfold update_attendance_sheet
  by_cases he : names.isEmpty
  · rw [if_pos he]
  · rw [if_neg he]
    have hfil : names.filter (fun n => decide (n ∉ (store.getD []).map Prod.fst)) = [] := by
      rw [List.filter_eq_nil_iff]
      intro n hn
      simpa using h n hn
    simp only [hfil, List.map_nil]
    rfl

theorem update_eq_of_filter_ne (now : String) (store : Option (List (String × String)))
    (names : List String)
    (h : names.filter (fun n => decide (n ∉ (store.getD []).map Prod.fst)) ≠ []) :
    update_attendance_sheet now store names =
      some (List.insertionSort tsLe ((store.getD []) ++
        ((names.filter (fun n => decide (n ∉ (store.getD []).map Prod.fst))).map
          (fun n => (n, now))))) := by
  have hne : names ≠ [] := by
    intro hh
    exact h (by simp [hh])
  unfold update_attendance_sheet
  rw [if_neg (by simpa [List.isEmpty_iff] using hne)]
  rw [if_neg (by simpa [List.isEmpty_iff, List.map_eq_nil_iff] using h)]

theorem mem_fst_update (now : String) (store : Option (List (String × String)))
    (names : List String) (n : String) (hn : n ∈ names) :
    n ∈ (((update_attendance_sheet now store names).getD []).map Prod.fst) := by
  by_cases hfil : names.filter (fun n => decide (n ∉ (store.getD []).map Prod.fst)) = []
  · by_cases hmem : n ∈ (store.getD []).map Prod.fst
    · have hupd : update_attendance_sheet now store names = store := by
        apply update_of_all_mem
        intro m hm
        by_contra hnot
        have hmf : m ∈ names.filter (fun x => decide (x ∉ (store.getD []).map Prod.fst)) :=
          List.mem_filter.mpr ⟨hm, decide_eq_true hnot⟩
        rw [hfil] at hmf
        exact absurd hmf (List.not_mem_nil m)
      rw [hupd]
      exact hmem
    · have hmf : n ∈ names.filter (fun x => decide (x ∉ (store.getD []).map Prod.fst)) :=
        List.mem_filter.mpr ⟨hn, decide_eq_true hmem⟩
      rw [hfil] at hmf
      exact absurd hmf (List.not_mem_nil n)
  · rw [update_eq_of_filter_ne now store names hfil]
    have hperm := (List.perm_insertionSort tsLe ((store.getD []) ++
      ((names.filter (fun m => decide (m ∉ (store.getD []).map Prod.fst))).map
        (fun m => (m, now))))).map Prod.fst
    rw [Option.getD_some, List.Perm.mem_iff hperm]
    by_cases hmem : n ∈ (store.getD []).map Prod.fst
    · rw [List.map_append]
      exact List.mem_append_left _ hmem
    · rw [List.map_append]
      refine List.mem_append_right _ ?_
      rw [List.map_map]
      have hmf : n ∈ names.filter (fun m => decide (m ∉ (store.getD []).map Prod.fst)) :=
        List.mem_filter.mpr ⟨hn, decide_eq_true hmem⟩
      exact List.mem_map.mpr ⟨n, hmf, rfl⟩

theorem countP_eq_one_of_nodup_mem :
    ∀ (l : List String) (n : String), l.Nodup → n ∈ l →
      l.countP (fun m => decide (m = n)) = 1
  | [], n, _, h => absurd h (List.not_mem_nil n)
  | x :: xs, n, hd, h => by
    rcases List.mem_cons.mp h with rfl | hx
    · have hrest : xs.countP (fun m => decide (m = n)) = 0 := by
        rw [List.countP_eq_zero]
        intro a ha
        simp only [decide_eq_true_eq]
        intro hEq
        subst hEq
        exact (List.nodup_cons.mp hd).1 ha
      rw [List.countP_cons_of_pos _ _ (by simp), hrest]
    · have hxn : ¬(x = n) := by
        intro hEq
        subst hEq
        exact (List.nodup_cons.mp hd).1 hx
      rw [List.countP_cons_of_neg _ _ (by simpa using hxn)]
      exact countP_eq_one_of_nodup_mem xs n (List.nodup_cons.mp hd).2 hx

theorem countP_update (t1 : String) (store : Option (List (String × String)))
    (names : List String) (n : String) (hn : n ∈ names) (hnodup : names.Nodup)
    (honce : (store.getD []).countP (fun r => decide (r.1 = n)) ≤ 1) :
    ((update_attendance_sheet t1 store names).getD []).countP
      (fun r => decide (r.1 = n)) = 1 := by
  by_cases hfil : names.filter (fun m => decide (m ∉ (store.getD []).map Prod.fst)) = []
  · have hmem : n ∈ (store.getD []).map Prod.fst := by
      by_contra hnot
      have hmf : n ∈ names.filter (fun m => decide (m ∉ (store.getD []).map Prod.fst)) :=
        List.mem_filter.mpr ⟨hn, decide_eq_true hnot⟩
      rw [hfil] at hmf
      exact absurd hmf (List.not_mem_nil n)
    have hupd : update_attendance_sheet t1 store names = store := by
      apply update_of_all_mem
      intro m hm
      by_contra hnot
      have hmf : m ∈ names.filter (fun x => decide (x ∉ (store.getD []).map Prod.fst)) :=
        List.mem_filter.mpr ⟨hm, decide_eq_true hnot⟩
      rw [hfil] at hmf
      exact absurd hmf (List.not_mem_nil m)
    rw [hupd]
    have hpos := (countP_fst_pos_iff (store.getD []) n).mpr hmem
    omega
  · rw [update_eq_of_filter_ne t1 store names hfil, Option.getD_some]
    rw [(List.perm_insertionSort tsLe _).countP_eq, List.countP_append, List.countP_map]
    have hcomp : ((fun r : String × String => decide (r.1 = n)) ∘ fun m => (m, t1)) =
        fun m => decide (m = n) := rfl
    rw [hcomp]
    by_cases hmem : n ∈ (store.getD []).map Prod.fst
    · have hdf : (store.getD []).countP (fun r => decide (r.1 = n)) = 1 := by
        have hpos := (countP_fst_pos_iff (store.getD []) n).mpr hmem
        omega
      have hnew : (names.filter (fun m => decide (m ∉ (store.getD []).map Prod.fst))).countP
          (fun m => decide (m = n)) = 0 := by
        rw [List.countP_eq_zero]
        intro m hm
        rcases List.mem_filter.mp hm with ⟨_, hm2⟩
        simp only [decide_eq_true_eq]
        intro hEq
        subst hEq
        exact (of_decide_eq_true hm2) hmem
      omega
    · have hdf : (store.getD []).countP (fun r => decide (r.1 = n)) = 0 := by
        rw [List.countP_eq_zero]
        intro r hr
        simp only [decide_eq_true_eq]
        intro hEq
        exact hmem (List.mem_map.mpr ⟨r, hr, hEq⟩)
      have hmemfil : n ∈ names.filter (fun m => decide (m ∉ (store.getD []).map Prod.fst)) :=
        List.mem_filter.mpr ⟨hn, decide_eq_true hmem⟩
      have hnewcount : (names.filter
          (fun m => decide (m ∉ (store.getD []).map Prod.fst))).countP
          (fun m => decide (m = n)) = 1 :=
        countP_eq_one_of_nodup_mem _ n (hnodup.filter _) hmemfil
      omega

/-- C3: flushing the same recognized-name set twice against the same day's
store is idempotent — the second flush changes nothing because every name
is already present by exact match after the first — and, provided the
prior store holds at most one row per flushed name, after the flush each
flushed name has exactly one row; in particular flushing ["alice"] twice
starting from a missing file yields exactly the single row
("alice", "09:00:00"). -/
theorem ledger_flush_idempotent (store : Option (List (String × String)))
    (names : List String) (t1 t2 : String) (hnodup : names.Nodup)
    (honce : ∀ n ∈ names, (store.getD []).countP (fun r => decide (r.1 = n)) ≤ 1) :
    update_attendance_sheet t2 (update_attendance_sheet t1 store names) names =
      update_attendance_sheet t1 store names ∧
    (∀ n ∈ names, ((update_attendance_sheet t1 store names).getD []).countP
        (fun r => decide (r.1 = n)) = 1) ∧
    update_attendance_sheet "10:00:00"
        (update_attendance_sheet "09:00:00" none ["alice"]) ["alice"] =
      some [("alice", "09:00:00")] := by
  refine ⟨?_, ?_, ?_⟩
  · exact update_of_all_mem t2 _ names (fun n hn => mem_fst_update t1 store names n hn)
  · intro n hn
    exact countP_update t1 store names n hn hnodup (honce n hn)
  · rfl

theorem ledger_flush_idempotent_witness :
    update_attendance_sheet "10:00:00"
        (update_attendance_sheet "09:00:00" none ["alice"]) ["alice"] =
      some [("alice", "09:00:00")] :=
  (ledger_flush_idempotent none ["alice"] "09:00:00" "10:00:00"
    (List.nodup_singleton "alice") (fun n _ => by simp)).2.2

/-- C4: a flush with at least one genuinely new name writes back a record
that is sorted by timestamp ascending and is, up to the sort's reordering,
exactly the existing rows (original timestamps untouched) plus one new row
per name absent from the existing record; the scenario flushing
["dave", "erin"] at 10:00:00 against a ledger holding dave at 09:00:00
appends only erin and keeps dave's timestamp, time-ordered. -/
theorem ledger_flush_sorted (store : Option (List (String × String)))
    (names : List String) (now : String)
    (hnew : ∃ n ∈ names, n ∉ (store.getD []).map Prod.fst) :
    (∃ l, update_attendance_sheet now store names = some l ∧
      List.Sorted tsLe l ∧
      l.Perm ((store.getD []) ++
        ((names.filter (fun n => decide (n ∉ (store.getD []).map Prod.fst))).map
          (fun n => (n, now))))) ∧
    update_attendance_sheet "10:00:00" (some [("dave", "09:00:00")]) ["dave", "erin"] =
      some [("dave", "09:00:00"), ("erin", "10:00:00")] := by
  obtain ⟨n, hn, hnmem⟩ := hnew
  have hfil : names.filter (fun m => decide (m ∉ (store.getD []).map Prod.fst)) ≠ [] := by
    intro h
    have hmf : n ∈ names.filter (fun m => decide (m ∉ (store.getD []).map Prod.fst)) :=
      List.mem_filter.mpr ⟨hn, decide_eq_true hnmem⟩
    rw [h] at hmf
    exact absurd hmf (List.not_mem_nil n)
  refine ⟨⟨_, update_eq_of_filter_ne now store names hfil,
    List.sorted_insertionSort tsLe _, List.perm_insertionSort tsLe _⟩, ?_⟩
  have h09 : ("09:00:00" : String) ≤ "10:00:00" := by
    rw [String.le_iff_toList_le]
    decide
  simp [update_attendance_sheet, List.insertionSort, List.orderedInsert, tsLe, h09]

theorem ledger_flush_sorted_witness :
    update_attendance_sheet "10:00:00" (some [("dave", "09:00:00")]) ["dave", "erin"] =
      some [("dave", "09:00:00"), ("erin", "10:00:00")] :=
  (ledger_flush_sorted (some [("dave", "09:00:00")]) ["dave", "erin"] "10:00:00"
    ⟨"erin", by simp, by simp⟩).2

theorem processPersonImages_append (xs ys : List ImageOutcome) :
    processPersonImages (xs ++ ys) =
      ((processPersonImages xs).1 ++ (processPersonImages ys).1,
        (processPersonImages xs).2 ++ (processPersonImages ys).2) := by
  induction xs with
  | nil => simp [processPersonImages]
  | cons img rest ih =>
    cases img with
    | detected encodings =>
      cases encodings with
      | nil => simp [processPersonImages, ih]
      | cons e es => simp [processPersonImages, ih]
    | failure m => simp [processPersonImages, ih]

theorem load_foldl_fst (persons : List (String × List ImageOutcome))
    (a : List Desc) (b : List String) :
    (persons.foldl
      (fun acc p =>
        if ((processPersonImages p.2).1).isEmpty then acc
        else (acc.1 ++ (processPersonImages p.2).1,
          acc.2 ++ List.replicate (processPersonImages p.2).1.length p.1)) (a, b)).1 =
      a ++ (persons.map (fun p => (processPersonImages p.2).1)).flatten := by
  induction persons generalizing a b with
  | nil => simp
  | cons p rest ih =>
    by_cases h : (processPersonImages p.2).1.isEmpty
    · rw [List.foldl_cons, if_pos h, ih]
      rw [List.isEmpty_iff] at h
      simp [h]
    · rw [List.foldl_cons, if_neg h, ih]
      simp

theorem load_known_faces_some_fst (persons : List (String × List ImageOutcome)) :
    (load_known_faces (some persons)).1 =
      (persons.map (fun p => (processPersonImages p.2).1)).flatten := by
  cases persons with
  | nil => rfl
  | cons p rest =>
    show (List.foldl _ ([], []) (p :: rest)).1 = _
    exact load_foldl_fst (p :: rest) [] []

/-- C8: the session aborts before the recognition loop, producing no
attendance artifact, whenever the descriptor store yields no enrolled
identity: missing root directory, empty root directory, or no image
produced a descriptor; the store yields no identity for a present
nonempty root exactly when every person's images all failed, and a
per-image failure is non-fatal — the images after it are still processed
and contribute exactly as they would alone. -/
theorem startup_fatal_no_identities :
    (∀ (cameraOk : Bool) (now : String) store names,
        mainSession none cameraOk now store names = none) ∧
    (∀ (cameraOk : Bool) (now : String) store names,
        mainSession (some []) cameraOk now store names = none) ∧
    (∀ root (cameraOk : Bool) (now : String) store names,
        (load_known_faces root).1 = [] →
        mainSession root cameraOk now store names = none) ∧
    (∀ persons, (load_known_faces (some persons)).1 = [] ↔
        ∀ p ∈ persons, (processPersonImages p.2).1 = []) ∧
    (∀ xs ys, processPersonImages (xs ++ ys) =
        ((processPersonImages xs).1 ++ (processPersonImages ys).1,
          (processPersonImages xs).2 ++ (processPersonImages ys).2)) := by
  refine ⟨fun cameraOk now store names => rfl, fun cameraOk now store names => rfl,
    ?_, ?_, processPersonImages_append⟩
  · intro root cameraOk now store names h
    unfold mainSession
    rw [h]
    rfl
  · intro persons
    rw [load_known_faces_some_fst, List.flatten_eq_nil_iff]
    constructor
    · intro h p hp
      exact h _ (List.mem_map.mpr ⟨p, hp, rfl⟩)
    · intro h l hl
      rcases List.mem_map.mp hl with ⟨p, hp, rfl⟩
      exact h p hp

theorem startup_fatal_no_identities_witness :
    mainSession (some [("carol", [ImageOutcome.detected []])]) true "09:00:00" none [] =
      none :=
  startup_fatal_no_identities.2.2.1 (some [("carol", [ImageOutcome.detected []])])
    true "09:00:00" none [] rfl

theorem sumCounts_take_succ (poses : List Pose) (i : Nat) (h : i < poses.length) :
    sumCounts (poses.take (i + 1)) = sumCounts (poses.take i) + req poses i := by
  rw [sumCounts, List.take_succ, List.map_append, List.sum_append]
  simp [sumCounts, req, List.getD, List.getElem?_eq_getElem h]

theorem stepEnroll_frame_inv (poses : List Pose) (hpos : ∀ p ∈ poses, 0 < p.count)
    (s : EnrollState) (faces : Nat) (delayOk : Bool) (h : EnrollInv poses s) :
    EnrollInv poses (stepEnroll poses s (FrameInput.frame faces delayOk)) := by
  cases s with
  | complete t => exact h
  | capturing i taken total =>
    obtain ⟨hi, htk, htot⟩ := h
    simp only [stepEnroll]
    by_cases hcap : faces = 1 ∧ delayOk = true
    · rw [if_pos hcap]
      by_cases hlt : taken + 1 < req poses i
      · rw [if_pos hlt]
        exact ⟨hi, hlt, by omega⟩
      · rw [if_neg hlt]
        have hreq : taken + 1 = req poses i := by omega
        have htot' : total + 1 = sumCounts (poses.take (i + 1)) := by
          rw [sumCounts_take_succ poses i hi]
          omega
        by_cases hnext : i + 1 < poses.length
        · rw [if_pos hnext]
          refine ⟨hnext, ?_, by simpa using htot'⟩
          have hmem : poses.getD (i + 1) default ∈ poses := by
            rw [List.getD_eq_getElem _ _ hnext]
            exact List.getElem_mem hnext
          exact hpos _ hmem
        · rw [if_neg hnext]
          have hall : i + 1 = poses.length := by omega
          show total + 1 = sumCounts poses
          rw [htot', hall, List.take_length]
    · rw [if_neg hcap]
      exact ⟨hi, htk, htot⟩

theorem stepEnroll_invLe (poses : List Pose) (hpos : ∀ p ∈ poses, 0 < p.count)
    (s : EnrollState) (input : FrameInput) (h : EnrollInvLe poses s) :
    EnrollInvLe poses (stepEnroll poses s input) := by
  cases s with
  | complete t => exact h
  | capturing i taken total =>
    obtain ⟨hi, htk, htot⟩ := h
    have htake : sumCounts (poses.take (i + 1)) = sumCounts (poses.take i) + req poses i :=
      sumCounts_take_succ poses i hi
    cases input with
    | readFailed =>
      simp only [stepEnroll]
      by_cases hnext : i + 1 < poses.length
      · rw [if_pos hnext]
        refine ⟨hnext, ?_, by omega⟩
        have hmem : poses.getD (i + 1) default ∈ poses := by
          rw [List.getD_eq_getElem _ _ hnext]
          exact List.getElem_mem hnext
        exact hpos _ hmem
      · rw [if_neg hnext]
        have hall : i + 1 = poses.length := by omega
        show total ≤ sumCounts poses
        have : sumCounts (poses.take (i + 1)) = sumCounts poses := by
          rw [hall, List.take_length]
        omega
    | frame faces delayOk =>
      simp only [stepEnroll]
      by_cases hcap : faces = 1 ∧ delayOk = true
      · rw [if_pos hcap]
        by_cases hlt : taken + 1 < req poses i
        · rw [if_pos hlt]
          exact ⟨hi, hlt, by omega⟩
        · rw [if_neg hlt]
          by_cases hnext : i + 1 < poses.length
          · rw [if_pos hnext]
            refine ⟨hnext, ?_, by omega⟩
            have hmem : poses.getD (i + 1) default ∈ poses := by
              rw [List.getD_eq_getElem _ _ hnext]
              exact List.getElem_mem hnext
            exact hpos _ hmem
          · rw [if_neg hnext]
            have hall : i + 1 = poses.length := by omega
            show total + 1 ≤ sumCounts poses
            have : sumCounts (poses.take (i + 1)) = sumCounts poses := by
              rw [hall, List.take_length]
            omega
      · rw [if_neg hcap]
        exact ⟨hi, htk, htot⟩

theorem foldl_stepEnroll_inv (poses : List Pose) (hpos : ∀ p ∈ poses, 0 < p.count)
    (inputs : List FrameInput) :
    ∀ (s : EnrollState), (∀ inp ∈ inputs, inp ≠ FrameInput.readFailed) →
      EnrollInv poses s → EnrollInv poses (inputs.foldl (stepEnroll poses) s) := by
  induction inputs with
  | nil =>
    intro s _ h
    exact h
  | cons inp rest ih =>
    intro s hnf h
    rw [List.foldl_cons]
    refine ih _ (fun i hi => hnf i (List.mem_cons_of_mem _ hi)) ?_
    cases inp with
    | readFailed => exact absurd rfl (hnf FrameInput.readFailed (List.mem_cons_self _ _))
    | frame faces delayOk => exact stepEnroll_frame_inv poses hpos s faces delayOk h

theorem foldl_stepEnroll_invLe (poses : List Pose) (hpos : ∀ p ∈ poses, 0 < p.count)
    (inputs : List FrameInput) :
    ∀ (s : EnrollState), EnrollInvLe poses s →
      EnrollInvLe poses (inputs.foldl (stepEnroll poses) s) := by
  induction inputs with
  | nil =>
    intro s h
    exact h
  | cons inp rest ih =>
    intro s h
    rw [List.foldl_cons]
    exact ih _ (stepEnroll_invLe poses hpos s inp h)

/-- C9 counterexample: the claimed invariant fails on the program because
a failed frame read (lines 67-70 of `enroll_new_person.py`) breaks out of
the inner while-loop only and the for-loop advances to the next pose with
the stage incomplete.  Concretely, with one Center snapshot taken (stage
requirement 2), a read failure advances to stage 1 with the stage count 1
short, and the run that then completes the remaining four poses reaches
the Complete state reporting 5 saved images while the per-stage
requirements sum to 6. -/
theorem enrollment_state_machine_cex :
    stepEnroll POSES (EnrollState.capturing 0 1 1) FrameInput.readFailed =
      EnrollState.capturing 1 0 1 ∧
    req POSES 0 = 2 ∧
    runEnroll POSES [FrameInput.frame 1 true, FrameInput.readFailed,
      FrameInput.frame 1 true, FrameInput.frame 1 true, FrameInput.frame 1 true,
      FrameInput.frame 1 true] = EnrollState.complete 5 ∧
    sumCounts POSES = 6 := by
  decide

/-- C9 (amended): the enrollment workflow is a state machine over the
ordered pose sequence: on a read frame, zero or several detected faces
leave the state unchanged (a snapshot is captured only with exactly one
face), a capture advances to the next stage only when the captured count
reaches the stage's requirement, and completion from a capture happens
only at the last stage; a frame-read failure, however, abandons the
current stage — advancing to the next pose with the stage incomplete and
the total unchanged, or completing from the last stage.  Consequently a
run that reaches the Complete state reports a total equal to the sum of
the per-stage required counts whenever no frame read failed, and in
general a total bounded above by that sum. -/
theorem enrollment_state_machine_amended (poses : List Pose)
    (hpos : ∀ p ∈ poses, 0 < p.count) (hlen : 0 < poses.length) :
    (∀ i taken total (faces : Nat) (delayOk : Bool), faces ≠ 1 →
        stepEnroll poses (EnrollState.capturing i taken total)
          (FrameInput.frame faces delayOk) = EnrollState.capturing i taken total) ∧
    (∀ i taken total faces delayOk i' taken' total', taken < req poses i →
        stepEnroll poses (EnrollState.capturing i taken total)
          (FrameInput.frame faces delayOk) = EnrollState.capturing i' taken' total' →
        i' = i ∨ (i' = i + 1 ∧ taken + 1 = req poses i)) ∧
    (∀ i taken total faces delayOk t, taken < req poses i → i < poses.length →
        stepEnroll poses (EnrollState.capturing i taken total)
          (FrameInput.frame faces delayOk) = EnrollState.complete t →
        taken + 1 = req poses i ∧ poses.length = i + 1) ∧
    (∀ i taken total, i + 1 < poses.length →
        stepEnroll poses (EnrollState.capturing i taken total) FrameInput.readFailed =
          EnrollState.capturing (i + 1) 0 total) ∧
    (∀ i taken total, ¬ i + 1 < poses.length →
        stepEnroll poses (EnrollState.capturing i taken total) FrameInput.readFailed =
          EnrollState.complete total) ∧
    (∀ inputs t, (∀ inp ∈ inputs, inp ≠ FrameInput.readFailed) →
        runEnroll poses inputs = EnrollState.complete t → t = sumCounts poses) ∧
    (∀ inputs t, runEnroll poses inputs = EnrollState.complete t →
        t ≤ sumCounts poses) := by
  have hreq0 : 0 < req poses 0 := by
    have hmem : poses.getD 0 default ∈ poses := by
      rw [List.getD_eq_getElem _ _ hlen]
      exact List.getElem_mem hlen
    exact hpos _ hmem
  refine ⟨?_, ?_, ?_, ?_, ?_, ?_, ?_⟩
  · intro i taken total faces delayOk hf
    simp only [stepEnroll]
    rw [if_neg (by simp [hf])]
  · intro i taken total faces delayOk i' taken' total' htk hstep
    simp only [stepEnroll] at hstep
    by_cases hcap : faces = 1 ∧ delayOk = true
    · rw [if_pos hcap] at hstep
      by_cases hlt : taken + 1 < req poses i
      · rw [if_pos hlt] at hstep
        cases hstep
        exact Or.inl rfl
      · rw [if_neg hlt] at hstep
        by_cases hnext : i + 1 < poses.length
        · rw [if_pos hnext] at hstep
          cases hstep
          exact Or.inr ⟨rfl, by omega⟩
        · rw [if_neg hnext] at hstep
          cases hstep
    · rw [if_neg hcap] at hstep
      cases hstep
      exact Or.inl rfl
  · intro i taken total faces delayOk t htk hi hstep
    simp only [stepEnroll] at hstep
    by_cases hcap : faces = 1 ∧ delayOk = true
    · rw [if_pos hcap] at hstep
      by_cases hlt : taken + 1 < req poses i
      · rw [if_pos hlt] at hstep
        cases hstep
      · rw [if_neg hlt] at hstep
        by_cases hnext : i + 1 < poses.length
        · rw [if_pos hnext] at hstep
          cases hstep
        · rw [if_neg hnext] at hstep
          cases hstep
          exact ⟨by omega, by omega⟩
    · rw [if_neg hcap] at hstep
      cases hstep
  · intro i taken total hnext
    simp only [stepEnroll]
    rw [if_pos hnext]
  · intro i taken total hnext
    simp only [stepEnroll]
    rw [if_neg hnext]
  · intro inputs t hnf hrun
    have hinv := foldl_stepEnroll_inv poses hpos inputs
      (EnrollState.capturing 0 0 0) hnf ⟨hlen, hreq0, by simp [sumCounts]⟩
    rw [runEnroll] at hrun
    rw [hrun] at hinv
    exact hinv
  · intro inputs t hrun
    have hinv := foldl_stepEnroll_invLe poses hpos inputs
      (EnrollState.capturing 0 0 0) ⟨hlen, hreq0, by simp [sumCounts]⟩
    rw [runEnroll] at hrun
    rw [hrun] at hinv
    exact hinv

theorem enrollment_state_machine_amended_witness :
    runEnroll POSES (List.replicate 6 (FrameInput.frame 1 true)) =
      EnrollState.complete 6 ∧
    sumCounts POSES = 6 :=
  ⟨by decide, ((enrollment_state_machine_amended POSES (by decide) (by decide)).2.2.2.2.2.1
    (List.replicate 6 (FrameInput.frame 1 true)) 6 (by decide) (by decide)).symm⟩

/-- C10: the no-match sentinel "Unknown" is not a reserved identity name:
enrollment's validation accepts it (non-empty, no excluded character), a
within-tolerance match on a reference descriptor enrolled under the name
"Unknown" returns "Unknown" — a value equal to that of a failed match
against an empty reference set, hence indistinguishable in the returned
value — and the name is then inserted into the session recognition set
and flushed to the ledger like any other identity. -/
theorem unknown_not_reserved :
    invalid_name "Unknown" = false ∧
    recognizeFace [[0]] ["Unknown"] (55/100) [0] = "Unknown" ∧
    recognizeFace [] [] (55/100) [0] = "Unknown" ∧
    recognizeFace [[0]] ["Unknown"] (55/100) [0] = recognizeFace [] [] (55/100) [0] ∧
    observeRecognition ∅ "Unknown" = (insert "Unknown" ∅, true) ∧
    update_attendance_sheet "09:00:00" none ["Unknown"] =
      some [("Unknown", "09:00:00")] := by
  have h1 : recognizeFace [[0]] ["Unknown"] (55/100) [0] = "Unknown" := by
    norm_num [recognizeFace, compare_faces, face_distance_sq, sqDist, argmin, listMin]
  have h2 : recognizeFace [] [] (55/100) [0] = "Unknown" := by
    simp [recognizeFace, face_distance_sq]
  refine ⟨by decide, h1, h2, h1.trans h2.symm, by simp [observeRecognition], rfl⟩

end FaceAttendance
